import Mathlib

/- Verification of `torch/quantization/_numeric_suite.py`.

   The development shallowly embeds the code of that file:
   * Python dicts are association lists; `d[k] = v` overwrites the binding
     in place when the key is present and appends otherwise (`pySet`), and
     lookup returns the most recent binding (`pyGet`).  For lists built by
     repeated assignment the two agree with Python's dict exactly.
   * Python strings are Lean strings; `s.split(".")` is `splitDots`,
     `"".join(l)` is `String.join l`.
   * Tensors are opaque where the code treats them opaquely; for the logger
     claims a tensor is the list of its rows along dimension 0, so that
     `torch.cat` along dimension 0 is list append and `detach` preserves
     the value.
   * Module trees are inductive trees carrying exactly the attributes the
     verified functions read (type tag, named children, and for the logger
     walkers the `isinstance(_, Logger)` answer and the `stats` record).
   * Recursive Python functions walk finite object trees; the embeddings
     take a fuel argument (Python's recursion limit) and return `none`
     when the fuel runs out, which never happens when the fuel exceeds
     the tree height.  -/

namespace NumericSuite

/-- Python dict lookup `d[k]` over an association list: the most recent
binding of the key wins, which matches assignment overwriting the value. -/
def pyGet {κ α : Type} [DecidableEq κ] (l : List (κ × α)) (k : κ) : Option α :=
  l.foldl (fun acc p => if p.1 = k then some p.2 else acc) none

/-- Python dict assignment `d[k] = v`: overwrite the binding in place if the
key is present (keeping its position), append it otherwise. -/
def pySet {κ α : Type} [DecidableEq κ] (l : List (κ × α)) (k : κ) (v : α) :
    List (κ × α) :=
  if l.any (fun p => decide (p.1 = k)) then
    l.map (fun p => if p.1 = k then (k, v) else p)
  else l ++ [(k, v)]

/-- Rebuild the Python dict arising from assigning the bindings of `l` in
order into an initially empty dict. -/
def toDict {κ α : Type} [DecidableEq κ] (l : List (κ × α)) : List (κ × α) :=
  l.foldl (fun d p => pySet d p.1 p.2) []

def splitDotsAux : List Char → List Char → List String
  | [], acc => [String.mk acc.reverse]
  | c :: rest, acc =>
    if c = '.' then String.mk acc.reverse :: splitDotsAux rest []
    else splitDotsAux rest (c :: acc)

/-- Python `s.split(".")`: the (always nonempty) list of dot-separated
segments of `s`. -/
def splitDots (s : String) : List String := splitDotsAux s.data []

/-- Embeds `"".join(s.split(".")[0:-1])` (lines 14 and 16 of the source): all
segments but the last, concatenated with NO separator. -/
def stem1 (s : String) : String := String.join ((splitDots s).dropLast)

/-- Embeds `"".join(s.split(".")[0:-2])` (line 17 of the source): all segments but
the last two, concatenated with NO separator. -/
def stem2 (s : String) : String :=
  String.join (((splitDots s).dropLast).dropLast)

/-- The loop of `_find_match` (lines 15-21): for each candidate `s2` in
order, return it if the target stem equals its one-segment-stripped or its
two-segment-stripped dotless concatenation. -/
def matchLoop (ms : String) : List String → Option String
  | [] => none
  | s2 :: rest =>
    if ms = stem1 s2 then some s2
    else if ms = stem2 s2 then some s2
    else matchLoop ms rest

/-- Embeds `_find_match(str_list, key_str, postfix)` (lines 11-23).  When the last
segment of `key_str` is not `sfx` the function returns `None`; otherwise it
scans `str_list` for the first entry whose stripped concatenation matches
`key_str`'s, returning `None` when the loop is exhausted. -/
def findMatch (strList : List String) (keyStr sfx : String) : Option String :=
  if (splitDots keyStr).getLast? = some sfx then
    matchLoop (stem1 keyStr) strList
  else none

/-- The shared shape of the two comparison loops (`compare_weights` lines
48-53 and `get_matching_activations` lines 318-323): for every `(key, qv)`
of the quantized dict in order, look up a matching name among `cands`; on
success emit the pair of the matched float value and the quantized value.
The inner `pyGet fd mk2 = none` branch cannot occur when `cands` lists
keys of `fd` (Python would raise `KeyError`); see `findMatch_mem`. -/
def matchedPairs {β γ : Type} (cands : List String) (fd : List (String × β))
    (sfx : String) : List (String × γ) → List (String × β × γ)
  | [] => []
  | (key, qv) :: rest =>
    match findMatch cands key sfx with
    | none => matchedPairs cands fd sfx rest
    | some mk2 =>
      match pyGet fd mk2 with
      | some fv => (key, fv, qv) :: matchedPairs cands fd sfx rest
      | none => matchedPairs cands fd sfx rest

/-- Embeds `compare_weights(float_dict, quantized_dict)` (lines 26-54).  Iterating
a dict iterates its keys, so `_find_match` receives the float keys; a
result entry is the record `{"float": float_dict[match_key],
"quantized": quantized_dict[key]}`, modelled as the pair. -/
def compareWeights {α : Type} (floatDict quantizedDict : List (String × α)) :
    List (String × α × α) :=
  matchedPairs (floatDict.map Prod.fst) floatDict ("weight") quantizedDict

/-! ### Loggers (lines 103-150)

`Logger.__init__` creates an empty `stats` dict; `ShadowLogger.__init__`
sets `stats["float"] = None` and `stats["quantized"] = None`;
`OutputLogger.__init__` sets `stats["tensor_val"] = None`.  We model each
slot by its contents, an `Option` of a tensor, where a tensor is its list
of rows along dimension 0. -/

/-- Embeds `detach`: it returns a tensor with the same rows (it only severs autograd
bookkeeping, which is outside the value model). -/
def detach {α : Type} (x : List α) : List α := x

/-- Embeds `OutputLogger.forward` (lines 145-150): initialize or `torch.cat` the
slot, and return the input itself. -/
def outForward {α : Type} (st : Option (List α)) (x : List α) :
    Option (List α) × List α :=
  match st with
  | none => (some x, x)
  | some v => (some (v ++ x), x)

/-- The accumulated `tensor_val` slot after a sequence of forward calls. -/
def runOut {α : Type} (st : Option (List α)) (xs : List (List α)) :
    Option (List α) :=
  xs.foldl (fun s x => (outForward s x).1) st

/-- The two slots of a `ShadowLogger`'s `stats` dict. -/
structure SState (α : Type) where
  quantizedSlot : Option (List α)
  floatSlot : Option (List α)
deriving DecidableEq

/-- Embeds `ShadowLogger.forward(x, y)` (lines 125-134): accumulate `x.detach()`
into `stats["quantized"]` and `y.detach()` into `stats["float"]`. -/
def shadowForward {α : Type} (st : SState α) (x y : List α) : SState α :=
  { quantizedSlot :=
      match st.quantizedSlot with
      | none => some (detach x)
      | some v => some (v ++ detach x)
    floatSlot :=
      match st.floatSlot with
      | none => some (detach y)
      | some v => some (v ++ detach y) }

/-- The `ShadowLogger` state after a sequence of forward calls with
argument pairs `ps`. -/
def runShadow {α : Type} (st : SState α) (ps : List (List α × List α)) :
    SState α :=
  ps.foldl (fun s pr => shadowForward s pr.1 pr.2) st

/-! ### The Shadow wrapper (lines 153-222)

The wrapped quantized and float modules are opaque callables; we record,
for each operator variant, the function the module exposes.  Quantized
tensors have type `τ`, float tensors type `φ`, scalars type `ς`, and the
logger's accumulated state type `σ`; `x.dequantize()` is the ambient
function `dq : τ → φ`. -/

structure QuantModule (τ ς : Type) where
  forward : τ → τ
  add : τ → τ → τ
  add_scalar : τ → ς → τ
  mul : τ → τ → τ
  mul_scalar : τ → ς → τ
  cat : List τ → Nat → τ
  add_relu : τ → τ → τ

structure FloatModule (φ ς : Type) where
  forward : φ → φ
  add : φ → φ → φ
  add_scalar : φ → ς → φ
  mul : φ → φ → φ
  mul_scalar : φ → ς → φ
  cat : List φ → Nat → φ
  add_relu : φ → φ → φ

/-- A constructed `Shadow` instance (lines 165-170): `self.orig_module`,
`self.shadow_module`, the stored `self.dequant = nnq.DeQuantize()` (the
methods below use the tensor method `x.dequantize()` instead), and the
fresh logger's state-transition function `self.logger(output, shadow)`. -/
structure ShadowMod (τ φ ς σ : Type) where
  orig_module : QuantModule τ ς
  shadow_module : FloatModule φ ς
  dequant : τ → φ
  logger : σ → τ → φ → σ

/-- Embeds `Shadow.forward` (lines 172-177), with the logger state threaded
explicitly: returns the new logger state and the returned tensor. -/
def sForward {τ φ ς σ : Type} (dq : τ → φ) (sh : ShadowMod τ φ ς σ)
    (st : σ) (x : τ) : σ × τ :=
  let output := sh.orig_module.forward x
  let x2 := dq x
  let shadow_output := sh.shadow_module.forward x2
  (sh.logger st output shadow_output, output)

/-- Embeds `Shadow.add` (lines 179-185). -/
def sAdd {τ φ ς σ : Type} (dq : τ → φ) (sh : ShadowMod τ φ ς σ)
    (st : σ) (x y : τ) : σ × τ :=
  let output := sh.orig_module.add x y
  let x2 := dq x
  let y2 := dq y
  let shadow_output := sh.shadow_module.add x2 y2
  (sh.logger st output shadow_output, output)

/-- Embeds `Shadow.add_scalar` (lines 187-192); the scalar passes through. -/
def sAddScalar {τ φ ς σ : Type} (dq : τ → φ) (sh : ShadowMod τ φ ς σ)
    (st : σ) (x : τ) (y : ς) : σ × τ :=
  let output := sh.orig_module.add_scalar x y
  let x2 := dq x
  let shadow_output := sh.shadow_module.add_scalar x2 y
  (sh.logger st output shadow_output, output)

/-- Embeds `Shadow.mul` (lines 194-200). -/
def sMul {τ φ ς σ : Type} (dq : τ → φ) (sh : ShadowMod τ φ ς σ)
    (st : σ) (x y : τ) : σ × τ :=
  let output := sh.orig_module.mul x y
  let x2 := dq x
  let y2 := dq y
  let shadow_output := sh.shadow_module.mul x2 y2
  (sh.logger st output shadow_output, output)

/-- Embeds `Shadow.mul_scalar` (lines 202-207); the scalar passes through. -/
def sMulScalar {τ φ ς σ : Type} (dq : τ → φ) (sh : ShadowMod τ φ ς σ)
    (st : σ) (x : τ) (y : ς) : σ × τ :=
  let output := sh.orig_module.mul_scalar x y
  let x2 := dq x
  let shadow_output := sh.shadow_module.mul_scalar x2 y
  (sh.logger st output shadow_output, output)

/-- Embeds `Shadow.cat` (lines 209-214): dequantize each tensor of the list, the
dimension passes through. -/
def sCat {τ φ ς σ : Type} (dq : τ → φ) (sh : ShadowMod τ φ ς σ)
    (st : σ) (x : List τ) (dim : Nat) : σ × τ :=
  let output := sh.orig_module.cat x dim
  let x2 := x.map (fun y => dq y)
  let shadow_output := sh.shadow_module.cat x2 dim
  (sh.logger st output shadow_output, output)

/-- Embeds `Shadow.add_relu` (lines 216-222). -/
def sAddRelu {τ φ ς σ : Type} (dq : τ → φ) (sh : ShadowMod τ φ ς σ)
    (st : σ) (x y : τ) : σ × τ :=
  let output := sh.orig_module.add_relu x y
  let x2 := dq x
  let y2 := dq y
  let shadow_output := sh.shadow_module.add_relu x2 y2
  (sh.logger st output shadow_output, output)

/-! ### The stub-substitution walker (lines 225-260)

`prepare_model_with_stubs` reads, of each module, only its named children
and its Python class; modules are modelled as finite trees of a class tag
and a named-children table.  The classes defined in this file (`Shadow`,
`nnq.DeQuantize`, and the `Logger` argument) get their own tags. -/

inductive Tag where
  | c (n : Nat)
  | shadowCls
  | dequantCls
deriving DecidableEq

inductive PyModule where
  | mk (ty : Tag) (children : List (String × PyModule))

def PyModule.ty : PyModule → Tag
  | .mk t _ => t

def PyModule.children : PyModule → List (String × PyModule)
  | .mk _ cs => cs

/-- The tree built by `Shadow.__init__` (lines 165-170): the wrapper holds
the two wrapped modules unchanged plus a fresh `nnq.DeQuantize()` and a
fresh `Logger()` instance, both leaves. -/
def mkShadowTree (L : Tag) (qc fc : PyModule) : PyModule :=
  .mk .shadowCls
    [("orig_module", qc), ("shadow_module", fc),
     ("dequant", .mk .dequantCls []), ("logger", .mk L [])]

/-- The body of the child loop of `prepare_model_with_stubs` (lines
246-260) on the quantized children, with the deferred `reassign` writes
already folded in: the writes only touch keys scanned by the loop, and
`_modules` keys are unique, so applying them equals rewriting each child
in place.  The float dict lookup is `pyGet` on the float children (line
242-244 builds exactly that dict); an unmatched name is skipped (line
248-249); a swap-listed float type produces a `Shadow` of the two current
children (lines 256-257); otherwise the pair is recursed into (lines
253-254). -/
def stubChildren (swap : List Tag) (L : Tag)
    (recur : PyModule → PyModule → Option PyModule) (fm : PyModule) :
    List (String × PyModule) → Option (List (String × PyModule))
  | [] => some []
  | (n, c) :: rest =>
    match pyGet fm.children n with
    | none => (stubChildren swap L recur fm rest).map (fun t => (n, c) :: t)
    | some fc =>
      if fc.ty ∈ swap then
        (stubChildren swap L recur fm rest).map
          (fun t => (n, mkShadowTree L c fc) :: t)
      else
        match recur fc c with
        | none => none
        | some c2 =>
          (stubChildren swap L recur fm rest).map (fun t => (n, c2) :: t)

/-- Embeds `prepare_model_with_stubs(float_module, q_module, module_swap_list,
Logger)` (lines 225-260) as a function of the two trees, with fuel for the
recursion depth (Python's recursion limit); `none` signals fuel
exhaustion and never occurs when the fuel exceeds the tree height. -/
def prepareStubsF (swap : List Tag) (L : Tag) :
    Nat → PyModule → PyModule → Option PyModule
  | 0, _, _ => none
  | fuel + 1, fm, qm =>
    (stubChildren swap L (prepareStubsF swap L fuel) fm qm.children).map
      (fun cs => .mk qm.ty cs)

/-! ### The logger-collection walker (lines 57-100)

`_get_logger_dict_helper` reads, of each module, its named children, each
child's `isinstance(child, Logger)` answer, and (for logger children) the
`stats` attribute.  We model module trees by exactly those attributes:
`isLog` is the per-node `isinstance` answer for the `Logger` type in use
and `stats` the node's stat record, of an abstract type `σ`. -/

inductive MTree (σ : Type) where
  | mk (isLog : Bool) (stats : σ) (children : List (String × MTree σ))

def MTree.isLog {σ : Type} : MTree σ → Bool
  | .mk b _ _ => b

def MTree.stats {σ : Type} : MTree σ → σ
  | .mk _ s _ => s

def MTree.children {σ : Type} : MTree σ → List (String × MTree σ)
  | .mk _ _ cs => cs

/-- Embeds `get_prefix` (lines 67-68). -/
def withDot (p : String) : String := if p = "" then p else p ++ "."

/-- The first loop of `_get_logger_dict_helper` (lines 70-73): the first
child that is a `Logger` instance, if any (the loop breaks there). -/
def firstLogger {σ : Type} (cs : List (String × MTree σ)) :
    Option (MTree σ) :=
  (cs.find? (fun nc => nc.2.isLog)).map (fun nc => nc.2)

/-- The dict entry the first loop writes: key `get_prefix(prefix) +
"stats"` (line 72), value the logger child's `stats`. -/
def hereEntry {σ : Type} (m : MTree σ) (p : String) : List (String × σ) :=
  match firstLogger m.children with
  | some lg => [(withDot p ++ "stats", lg.stats)]
  | none => []

/-- Embeds `module_prefix` (line 76): `get_prefix(prefix) + name if prefix else
name`. -/
def childPath (p name : String) : String :=
  if p = "" then name else p ++ "." ++ name

/-- The second loop of `_get_logger_dict_helper` (lines 75-77): recurse
into every child (loggers included) in order, concatenating the entries
each recursive call inserts. -/
def loggerScan {σ : Type}
    (recur : MTree σ → String → Option (List (String × σ)))
    (p : String) : List (String × MTree σ) → Option (List (String × σ))
  | [] => some []
  | (name, c) :: rest =>
    match recur c (childPath p name) with
    | none => none
    | some l => (loggerScan recur p rest).map (fun t => l ++ t)

/-- Embeds `_get_logger_dict_helper(mod, target_dict, Logger, prefix)` (lines
57-77), returning the list of dict insertions it performs in order, with
fuel for the recursion depth. -/
def loggerHelperF {σ : Type} :
    Nat → MTree σ → String → Option (List (String × σ))
  | 0, _, _ => none
  | fuel + 1, m, p =>
    (loggerScan (loggerHelperF fuel) p m.children).map
      (fun tail => hereEntry m p ++ tail)

/-- Embeds `get_logger_dict(mod, Logger, prefix)` (lines 80-100): the insertions
of the helper, starting from an empty dict. -/
def getLoggerDictF {σ : Type} (fuel : Nat) (m : MTree σ) (p : String) :
    Option (List (String × σ)) :=
  loggerHelperF fuel m p

/-! ### Activation matching (lines 302-324) -/

/-- Python string comparison: lexicographic on code points. -/
def charListLt : List Char → List Char → Bool
  | [], [] => false
  | [], _ :: _ => true
  | _ :: _, [] => false
  | a :: as, b :: bs =>
    if a.toNat < b.toNat then true
    else if b.toNat < a.toNat then false
    else charListLt as bs

def strLt (a b : String) : Bool := charListLt a.data b.data

/-- Stable insertion into a descending list. -/
def insertDesc (s : String) : List String → List String
  | [] => [s]
  | t :: rest => if strLt t s then s :: t :: rest else t :: insertDesc s rest

/-- Embeds `sorted(l, reverse=True)`: a descending sort (the keys the code sorts
are dict keys, hence pairwise distinct, so any descending sort produces
Python's output). -/
def sortDesc (l : List String) : List String := l.foldr insertDesc []

/-- Embeds `get_matching_activations(float_module, q_module, Logger)` (lines
302-324), for the `OutputLogger` records `compare_model_outputs` collects:
an `OutputLogger`'s `stats` dict holds the single slot `"tensor_val"`
(line 143), so a stat record is modelled by that slot's contents, and the
reads `[..]["tensor_val"]` on lines 322-323 are the records themselves.
The two logger dicts are collected with prefix `""` (lines 315-316), and
the match loop runs `_find_match` over the reverse-sorted float keys with
postfix `"stats"` (line 319). -/
def getMatchingActivationsF {τ : Type} (fuel : Nat)
    (fm qm : MTree (Option τ)) :
    Option (List (String × Option τ × Option τ)) :=
  match loggerHelperF fuel fm (""), loggerHelperF fuel qm ("") with
  | some fl, some ql =>
    let fd := toDict fl
    let qd := toDict ql
    some (matchedPairs (sortDesc (fd.map Prod.fst)) fd ("stats") qd)
  | _, _ => none

/-! ### The heap view of `prepare_model_with_stubs` (lines 225-260)

The frame claim is about object identity, so here the same function is
embedded over an explicit object heap: addresses are naturals, every
object is a node with a class tag and a `_modules` table of named child
addresses, and `Shadow(...)` allocates fresh objects.  The tree embedding
above is the special case of a heap whose two roots span disjoint
address-trees. -/

abbrev Addr := Nat

structure HNode where
  ty : Tag
  children : List (String × Addr)
deriving DecidableEq

structure Heap where
  mem : List (Addr × HNode)
  next : Addr
deriving DecidableEq

def Heap.get (h : Heap) (a : Addr) : Option HNode := pyGet h.mem a

/-- Overwrite the object at address `a` (append a binding; lookup takes
the most recent one). -/
def Heap.set (h : Heap) (a : Addr) (n : HNode) : Heap :=
  ⟨h.mem ++ [(a, n)], h.next⟩

/-- Allocate a fresh object. -/
def Heap.alloc (h : Heap) (n : HNode) : Addr × Heap :=
  (h.next, ⟨h.mem ++ [(h.next, n)], h.next + 1⟩)

/-- Embeds `named_children` of the object at `a` (an absent address has none;
unreachable for heaps that encode Python object graphs). -/
def heapChildren (h : Heap) (a : Addr) : List (String × Addr) :=
  match h.get a with
  | some nd => nd.children
  | none => []

/-- Embeds `obj._modules[k] = v` at address `a`. -/
def setChildAddr (h : Heap) (a : Addr) (k : String) (v : Addr) : Heap :=
  match h.get a with
  | some nd => h.set a ⟨nd.ty, pySet nd.children k v⟩
  | none => h

/-- The child loop of `prepare_model_with_stubs` (lines 246-257) over the
heap: `fcs` is the float-children dict, the list argument the snapshot of
the quantized children, and the accumulator the deferred `reassign` dict
(its keys are distinct child names, so a list suffices).  A swap-listed
float type allocates the `Shadow` (one fresh `nnq.DeQuantize()`, one
fresh `Logger()`, one fresh wrapper whose table holds the two wrapped
addresses and the two fresh leaves); otherwise the matched pair is
recursed into via `recur`, which may rewrite the heap. -/
def prepLoop (swap : List Tag) (L : Tag)
    (recur : Heap → Addr → Addr → Option Heap)
    (fcs : List (String × Addr)) :
    List (String × Addr) → Heap → List (String × Addr) →
      Option (Heap × List (String × Addr))
  | [], h, racc => some (h, racc)
  | (name, qc) :: rest, h, racc =>
    match pyGet fcs name with
    | none => prepLoop swap L recur fcs rest h racc
    | some fc =>
      match h.get fc with
      | none => prepLoop swap L recur fcs rest h racc
      | some fnd =>
        if fnd.ty ∈ swap then
          let r1 := h.alloc ⟨Tag.dequantCls, []⟩
          let r2 := r1.2.alloc ⟨L, []⟩
          let r3 := r2.2.alloc ⟨Tag.shadowCls,
            [("orig_module", qc), ("shadow_module", fc),
             ("dequant", r1.1), ("logger", r2.1)]⟩
          prepLoop swap L recur fcs rest r3.2 (racc ++ [(name, r3.1)])
        else
          match recur h fc qc with
          | none => none
          | some h2 => prepLoop swap L recur fcs rest h2 racc

/-- Embeds `prepare_model_with_stubs(float_module, q_module, module_swap_list,
Logger)` (lines 225-260) over the heap, with fuel for the recursion
depth: run the child loop, then apply the deferred writes to
`q_module._modules` (lines 259-260). -/
def prepareHeap (swap : List Tag) (L : Tag) :
    Nat → Heap → Addr → Addr → Option Heap
  | 0, _, _, _ => none
  | fuel + 1, h, fa, qa =>
    match prepLoop swap L (prepareHeap swap L fuel)
        (heapChildren h fa) (heapChildren h qa) h [] with
    | none => none
    | some (h2, racc) =>
      some (racc.foldl (fun hh kv => setChildAddr hh qa kv.1 kv.2) h2)

/-- Predicate `SpansMany h roots As`: the objects at `roots` are the roots of
disjointly-listable trees in `h`; `As` lists, for each root in order, the
addresses of its tree (the root first).  Together with `Nodup` of the
flattened lists this says the object graph under each root is a tree and
the trees share nothing. -/
inductive SpansMany (h : Heap) : List Addr → List (List Addr) → Prop where
  | nil : SpansMany h [] []
  | cons {a : Addr} {nd : HNode} {rest : List Addr}
      {Bs As : List (List Addr)} :
      h.get a = some nd →
      SpansMany h (nd.children.map Prod.snd) Bs →
      SpansMany h rest As →
      SpansMany h (a :: rest) ((a :: Bs.flatten) :: As)

/-- The object at `a` roots a tree whose addresses are listed by `A`. -/
def Spans (h : Heap) (a : Addr) (A : List Addr) : Prop :=
  SpansMany h [a] [A]

/-! ## General lemmas about the dict model -/

theorem pyGet_foldl_init {κ α : Type} [DecidableEq κ] (l : List (κ × α))
    (k : κ) :
    ∀ init : Option α,
      l.foldl (fun acc p => if p.1 = k then some p.2 else acc) init =
        match pyGet l k with
        | some v => some v
        | none => init := by
  induction l with
  | nil => intro init; rfl
  | cons x l ih =>
    intro init
    have h2 : (x :: l).foldl (fun acc p => if p.1 = k then some p.2 else acc)
        init =
        l.foldl (fun acc p => if p.1 = k then some p.2 else acc)
          (if x.1 = k then some x.2 else init) := rfl
    have h3 : pyGet (x :: l) k =
        l.foldl (fun acc p => if p.1 = k then some p.2 else acc)
          (if x.1 = k then some x.2 else none) := rfl
    rw [h2, ih (if x.1 = k then some x.2 else init), h3,
      ih (if x.1 = k then some x.2 else none)]
    cases hpl : pyGet l k with
    | some v => rfl
    | none => by_cases hx : x.1 = k <;> simp [hx]

theorem pyGet_cons {κ α : Type} [DecidableEq κ] (x : κ × α)
    (l : List (κ × α)) (k : κ) :
    pyGet (x :: l) k =
      match pyGet l k with
      | some v => some v
      | none => if x.1 = k then some x.2 else none :=
  pyGet_foldl_init l k (if x.1 = k then some x.2 else none)

theorem pyGet_append {κ α : Type} [DecidableEq κ] (l1 l2 : List (κ × α))
    (k : κ) :
    pyGet (l1 ++ l2) k =
      match pyGet l2 k with
      | some v => some v
      | none => pyGet l1 k := by
  show (l1 ++ l2).foldl _ none = _
  rw [List.foldl_append]
  exact pyGet_foldl_init l2 k (pyGet l1 k)

theorem pyGet_none_of_not_mem {κ α : Type} [DecidableEq κ]
    {l : List (κ × α)} {k : κ} (h : k ∉ l.map Prod.fst) : pyGet l k = none := by
  induction l with
  | nil => rfl
  | cons x l ih =>
    simp only [List.map_cons, List.mem_cons, not_or] at h
    rw [pyGet_cons, ih h.2]
    have hx : ¬ x.1 = k := fun hh => h.1 hh.symm
    simp [hx]

/-! ## Claim C2: the name matcher -/

theorem matchLoop_spec (ms : String) (l : List String) (s : String) :
    matchLoop ms l = some s ↔
      ∃ l1 l2, l = l1 ++ s :: l2 ∧ (ms = stem1 s ∨ ms = stem2 s) ∧
        ∀ x ∈ l1, ms ≠ stem1 x ∧ ms ≠ stem2 x := by
  induction l generalizing s with
  | nil =>
    constructor
    · intro h; cases h
    · rintro ⟨l1, l2, h, -, -⟩
      exact absurd h (by simp)
  | cons s2 rest ih =>
    by_cases hc : ms = stem1 s2 ∨ ms = stem2 s2
    · have hL : matchLoop ms (s2 :: rest) = some s2 := by
        rcases hc with h | h
        · simp [matchLoop, h]
        · by_cases h1 : ms = stem1 s2 <;> simp [matchLoop, h1, h]
      rw [hL]
      constructor
      · intro h
        injection h with h
        subst h
        exact ⟨[], rest, rfl, hc, by simp⟩
      · rintro ⟨l1, l2, heq, hcond, hnot⟩
        cases l1 with
        | nil =>
          simp only [List.nil_append, List.cons.injEq] at heq
          rw [heq.1]
        | cons y l1 =>
          simp only [List.cons_append, List.cons.injEq] at heq
          have hy := hnot s2 (by simp [heq.1])
          rcases hc with h | h
          · exact absurd h hy.1
          · exact absurd h hy.2
    · push_neg at hc
      have hL : matchLoop ms (s2 :: rest) = matchLoop ms rest := by
        simp [matchLoop, hc.1, hc.2]
      rw [hL, ih]
      constructor
      · rintro ⟨l1, l2, heq, hcond, hnot⟩
        refine ⟨s2 :: l1, l2, by rw [heq, List.cons_append], hcond, ?_⟩
        intro x hx
        rcases List.mem_cons.mp hx with rfl | hx
        · exact hc
        · exact hnot x hx
      · rintro ⟨l1, l2, heq, hcond, hnot⟩
        cases l1 with
        | nil =>
          simp only [List.nil_append, List.cons.injEq] at heq
          rw [heq.1] at hc
          rcases hcond with h | h
          · exact absurd h hc.1
          · exact absurd h hc.2
        | cons y l1 =>
          simp only [List.cons_append, List.cons.injEq] at heq
          exact ⟨l1, l2, heq.2, hcond, fun x hx => hnot x (by simp [hx])⟩

/-- C2 (counterexample): the claim asserts that
`find_match(["a.b.weight"], "x.a.b.weight", "weight")` matches.  It does
not: `_find_match` joins the dot-separated segments WITHOUT a separator
(lines 14, 16-17 use `"".join`), so the target stem is `"xab"` while the
candidate patterns are `"ab"` and `"a"`, and the function returns `None`. -/
theorem claim_c2_counterexample :
    findMatch [("a.b.weight")] ("x.a.b.weight") ("weight") = none := by decide

/-- C2 (amended): `find_match` returns `None` when the target's last
dot-separated segment differs from the suffix; otherwise it returns the
first candidate, in iteration order, whose segments minus the last one, or
minus the last two, concatenated WITHOUT separator, equal the separator-free
concatenation of the target's segments minus the last (so
`find_match(["a.b.weight"], "x.a.b.weight", "weight")` returns `None`), and
`None` when no candidate qualifies. -/
theorem claim_c2 (l : List String) (k p s : String) :
    findMatch l k p = some s ↔
      (splitDots k).getLast? = some p ∧
      ∃ l1 l2, l = l1 ++ s :: l2 ∧
        (stem1 k = stem1 s ∨ stem1 k = stem2 s) ∧
        ∀ x ∈ l1, stem1 k ≠ stem1 x ∧ stem1 k ≠ stem2 x := by
  unfold findMatch
  by_cases hk : (splitDots k).getLast? = some p
  · rw [if_pos hk]
    simp only [hk, true_and]
    exact matchLoop_spec (stem1 k) l s
  · rw [if_neg hk]
    simp [hk]

/-! ## The comparison loops (claims C4, C5, C9) -/

theorem findMatch_last {cands : List String} {k sfx m : String}
    (h : findMatch cands k sfx = some m) :
    (splitDots k).getLast? = some sfx := by
  by_cases hk : (splitDots k).getLast? = some sfx
  · exact hk
  · simp [findMatch, hk] at h

theorem matchedPairs_keys {β γ : Type} (cands : List String)
    (fd : List (String × β)) (sfx : String) (qd : List (String × γ))
    (k : String) (h : k ∈ (matchedPairs cands fd sfx qd).map Prod.fst) :
    k ∈ qd.map Prod.fst ∧ (splitDots k).getLast? = some sfx := by
  induction qd with
  | nil => simp [matchedPairs] at h
  | cons x rest ih =>
    obtain ⟨key, qv⟩ := x
    cases hf : findMatch cands key sfx with
    | none =>
      simp only [matchedPairs, hf] at h
      have := ih h
      exact ⟨by simp [this.1], this.2⟩
    | some mk2 =>
      cases hg : pyGet fd mk2 with
      | none =>
        simp only [matchedPairs, hf, hg] at h
        have := ih h
        exact ⟨by simp [this.1], this.2⟩
      | some fv =>
        simp only [matchedPairs, hf, hg, List.map_cons, List.mem_cons] at h
        rcases h with rfl | h
        · exact ⟨by simp, findMatch_last hf⟩
        · have := ih h
          exact ⟨by simp [this.1], this.2⟩

theorem matchedPairs_pyGet {β γ : Type} (cands : List String)
    (fd : List (String × β)) (sfx : String) (qd : List (String × γ))
    (hnd : (qd.map Prod.fst).Nodup) (k : String) (fv : β) (qv : γ) :
    pyGet (matchedPairs cands fd sfx qd) k = some (fv, qv) ↔
      pyGet qd k = some qv ∧
        ∃ mk2, findMatch cands k sfx = some mk2 ∧ pyGet fd mk2 = some fv := by
  induction qd with
  | nil => simp [matchedPairs, pyGet]
  | cons x rest ih =>
    obtain ⟨key, qv0⟩ := x
    simp only [List.map_cons, List.nodup_cons] at hnd
    obtain ⟨hkey, hnd⟩ := hnd
    have hrest := ih hnd
    by_cases hk : key = k
    · subst hk
      have hre : pyGet rest key = none := pyGet_none_of_not_mem hkey
      have hcons : pyGet ((key, qv0) :: rest) key = some qv0 := by
        rw [pyGet_cons, hre]; simp
    -- the result of the tail loop has no binding for `key` either
      have hmre : pyGet (matchedPairs cands fd sfx rest) key = none := by
        apply pyGet_none_of_not_mem
        intro hmem
        exact hkey (matchedPairs_keys cands fd sfx rest key hmem).1
      cases hf : findMatch cands key sfx with
      | none =>
        have hres :
            pyGet (matchedPairs cands fd sfx ((key, qv0) :: rest)) key =
              none := by
          simp only [matchedPairs, hf]
          exact hmre
        rw [hres, hcons]
        simp [hf]
      | some mk2 =>
        cases hg : pyGet fd mk2 with
        | none =>
          have hres :
              pyGet (matchedPairs cands fd sfx ((key, qv0) :: rest)) key =
                none := by
            simp only [matchedPairs, hf, hg]
            exact hmre
          rw [hres, hcons]
          constructor
          · intro h; cases h
          · rintro ⟨-, mk2b, hfb, hgb⟩
            injection hfb with hfb
            subst hfb
            rw [hg] at hgb
            exact Option.noConfusion hgb
        | some fv0 =>
          have hres :
              pyGet (matchedPairs cands fd sfx ((key, qv0) :: rest)) key =
                some (fv0, qv0) := by
            simp only [matchedPairs, hf, hg]
            rw [pyGet_cons, hmre]
            simp
          rw [hres, hcons]
          constructor
          · intro h
            injection h with h
            have h1 : fv0 = fv := congrArg Prod.fst h
            have h2 : qv0 = qv := congrArg Prod.snd h
            exact ⟨by rw [h2], mk2, rfl, by rw [hg, h1]⟩
          · rintro ⟨hq, mk2b, hfb, hgb⟩
            injection hq with hq
            injection hfb with hfb
            subst hfb
            rw [hg] at hgb
            injection hgb with hgb
            rw [hq, hgb]
    · have h1 : pyGet ((key, qv0) :: rest) k = pyGet rest k := by
        rw [pyGet_cons]
        cases hp : pyGet rest k <;> simp [hk]
      have h2 :
          pyGet (matchedPairs cands fd sfx ((key, qv0) :: rest)) k =
            pyGet (matchedPairs cands fd sfx rest) k := by
        cases hf : findMatch cands key sfx with
        | none => simp only [matchedPairs, hf]
        | some mk2 =>
          cases hg : pyGet fd mk2 with
          | none => simp only [matchedPairs, hf, hg]
          | some fv0 =>
            simp only [matchedPairs, hf, hg]
            rw [pyGet_cons]
            cases hp : pyGet (matchedPairs cands fd sfx rest) k <;> simp [hk]
      rw [h1, h2]
      exact hrest

/-- C4: `compare_weights` returns exactly the quantized names the matcher
(suffix `"weight"`) resolves against the float store, each entry pairing
the matched float value and the quantized value unchanged; unmatched names
are silently absent, and no input makes the function fail (it is total).
The `Nodup` hypothesis is the key-uniqueness guarantee of a Python dict. -/
theorem claim_c4 {α : Type} (fd qd : List (String × α))
    (hnd : (qd.map Prod.fst).Nodup) (k : String) (fv qv : α) :
    pyGet (compareWeights fd qd) k = some (fv, qv) ↔
      pyGet qd k = some qv ∧
        ∃ mk2, findMatch (fd.map Prod.fst) k ("weight") = some mk2 ∧
          pyGet fd mk2 = some fv :=
  matchedPairs_pyGet (fd.map Prod.fst) fd ("weight") qd hnd k fv qv

/-- C4 (witness): a one-entry store pair at a matching name. -/
theorem claim_c4_witness :
    pyGet (compareWeights [(("a.weight"), 3)] [(("a.weight"), (5 : Nat))])
        ("a.weight") = some (3, 5) :=
  (claim_c4 [(("a.weight"), 3)] [(("a.weight"), 5)] (by decide) ("a.weight")
      3 5).mpr ⟨by decide, ("a.weight"), by decide, by decide⟩

/-- C9 (implicit): every key of `compare_weights`'s result has `"weight"`
as its last dot-separated segment, because the matcher rejects any target
whose last segment differs from the requested suffix. -/
theorem claim_c9 {α : Type} (fd qd : List (String × α)) (k : String)
    (h : k ∈ (compareWeights fd qd).map Prod.fst) :
    (splitDots k).getLast? = some ("weight") :=
  (matchedPairs_keys (fd.map Prod.fst) fd ("weight") qd k h).2

/-- C9 (witness). -/
theorem claim_c9_witness :
    (splitDots ("a.weight")).getLast? = some ("weight") :=
  claim_c9 [(("a.weight"), (3 : Nat))] [(("a.weight"), 5)] ("a.weight")
    (by decide)

/-! ## Keys of a rebuilt dict are distinct (for claim C5) -/

theorem pySet_keys_nodup {κ α : Type} [DecidableEq κ]
    {l : List (κ × α)} (hnd : (l.map Prod.fst).Nodup) (k : κ) (v : α) :
    ((pySet l k v).map Prod.fst).Nodup := by
  unfold pySet
  by_cases hmem : l.any (fun p => decide (p.1 = k))
  · rw [if_pos hmem]
    have hkeys :
        (l.map (fun p => if p.1 = k then (k, v) else p)).map Prod.fst =
          l.map Prod.fst := by
      rw [List.map_map]
      apply List.map_congr_left
      intro p _
      by_cases hp : p.1 = k
      · simp [hp]
      · simp [hp]
    rw [hkeys]
    exact hnd
  · rw [if_neg hmem]
    rw [List.map_append]
    simp only [List.any_eq_true, decide_eq_true_eq, not_exists] at hmem
    simp only [List.map_cons, List.map_nil]
    apply List.Nodup.append hnd (by simp)
    intro a ha hb
    simp only [List.mem_singleton] at hb
    subst hb
    obtain ⟨p, hp, hpk⟩ := List.mem_map.mp ha
    exact hmem p ⟨hp, hpk⟩

theorem toDict_keys_nodup {κ α : Type} [DecidableEq κ] (l : List (κ × α)) :
    (((toDict l).map Prod.fst)).Nodup := by
  have haux : ∀ (l : List (κ × α)) (d : List (κ × α)),
      (d.map Prod.fst).Nodup →
      (((l.foldl (fun d p => pySet d p.1 p.2) d).map Prod.fst)).Nodup := by
    intro l
    induction l with
    | nil => intro d hd; exact hd
    | cons x l ih =>
      intro d hd
      exact ih (pySet d x.1 x.2) (pySet_keys_nodup hd x.1 x.2)
  exact haux l [] (by simp)

/-- C5: an entry of the activation-matching result exists for exactly the
quantized stat paths the matcher (suffix `"stats"`, the key under which
`get_logger_dict` files every record) resolves over the reverse-sorted
float stat paths, and it pairs the matched float record's slot with the
quantized record's slot; unmatched quantized paths are absent, and every
present entry carries both sides. -/
theorem claim_c5 {τ : Type} (fuel : Nat) (fm qm : MTree (Option τ))
    (fl ql : List (String × Option τ))
    (hf : loggerHelperF fuel fm ("") = some fl)
    (hq : loggerHelperF fuel qm ("") = some ql)
    (act : List (String × Option τ × Option τ))
    (hact : getMatchingActivationsF fuel fm qm = some act)
    (k : String) (fv qv : Option τ) :
    pyGet act k = some (fv, qv) ↔
      pyGet (toDict ql) k = some qv ∧
        ∃ mk2,
          findMatch (sortDesc ((toDict fl).map Prod.fst)) k ("stats") =
            some mk2 ∧
          pyGet (toDict fl) mk2 = some fv := by
  unfold getMatchingActivationsF at hact
  rw [hf, hq] at hact
  simp only [Option.some.injEq] at hact
  subst hact
  exact matchedPairs_pyGet (sortDesc ((toDict fl).map Prod.fst)) (toDict fl)
    ("stats") (toDict ql) (toDict_keys_nodup ql) k fv qv

/-- C5 (witness): one float and one quantized tree, each with a logger
under the child `"blk"`; the single result entry pairs the two records. -/
theorem claim_c5_witness :
    pyGet
        [(("blk.stats"),
          ((some [3] : Option (List Nat)), (some [4] : Option (List Nat))))]
        ("blk.stats") = some (some [3], some [4]) :=
  (claim_c5 4
      (.mk false none [(("blk"), .mk false none
        [(("lgr"), .mk true (some [3]) [])])])
      (.mk false none [(("blk"), .mk false none
        [(("lgr"), .mk true (some [4]) [])])])
      [(("blk.stats"), some [3])] [(("blk.stats"), some [4])]
      (by decide) (by decide)
      [(("blk.stats"), (some [3], some [4]))] (by decide)
      ("blk.stats") (some [3]) (some [4])).mpr
    ⟨by decide, ("blk.stats"), by decide, by decide⟩

/-! ## Claims C6 and C8: the loggers -/

theorem runOut_some {α : Type} (v : List α) (xs : List (List α)) :
    runOut (some v) xs = some (v ++ xs.flatten) := by
  induction xs generalizing v with
  | nil => simp [runOut]
  | cons x xs ih =>
    have h1 : runOut (some v) (x :: xs) = runOut (some (v ++ x)) xs := rfl
    rw [h1, ih]
    simp

theorem runShadow_slots {α : Type} (st : SState α)
    (ps : List (List α × List α)) :
    (runShadow st ps).quantizedSlot =
        runOut st.quantizedSlot (ps.map (fun pr => detach pr.1)) ∧
      (runShadow st ps).floatSlot =
        runOut st.floatSlot (ps.map (fun pr => detach pr.2)) := by
  induction ps generalizing st with
  | nil => exact ⟨rfl, rfl⟩
  | cons p ps ih =>
    obtain ⟨q0, f0⟩ := st
    have h1 : runShadow ⟨q0, f0⟩ (p :: ps) =
        runShadow (shadowForward ⟨q0, f0⟩ p.1 p.2) ps := rfl
    rw [h1]
    rcases ih (shadowForward ⟨q0, f0⟩ p.1 p.2) with ⟨ihq, ihf⟩
    constructor
    · rw [ihq]
      cases q0 <;> rfl
    · rw [ihf]
      cases f0 <;> rfl

/-- C6: starting from a fresh logger, `n` forward calls leave an
`OutputLogger`'s `tensor_val` slot equal to the dimension-0 concatenation
of the `n` inputs in call order, and a `ShadowLogger`'s `quantized` and
`float` slots equal to the concatenations of the (detached) first and
second arguments respectively; with zero calls each slot stays `None`.
The run functions are total, so repeated calls never raise. -/
theorem claim_c6 {α : Type} (xs : List (List α))
    (ps : List (List α × List α)) :
    runOut none xs = (if xs.isEmpty then none else some xs.flatten) ∧
      (runShadow ⟨none, none⟩ ps).quantizedSlot =
        (if ps.isEmpty then none
         else some ((ps.map (fun pr => detach pr.1)).flatten)) ∧
      (runShadow ⟨none, none⟩ ps).floatSlot =
        (if ps.isEmpty then none
         else some ((ps.map (fun pr => detach pr.2)).flatten)) := by
  have hout : ∀ (ys : List (List α)),
      runOut none ys = (if ys.isEmpty then none else some ys.flatten) := by
    intro ys
    cases ys with
    | nil => rfl
    | cons y ys =>
      have h1 : runOut (none : Option (List α)) (y :: ys) =
          runOut (some y) ys := rfl
      rw [h1, runOut_some]
      simp
  refine ⟨hout xs, ?_, ?_⟩
  · rw [(runShadow_slots ⟨none, none⟩ ps).1]
    have h2 := hout (ps.map (fun pr => detach pr.1))
    rw [h2]
    cases ps <;> rfl
  · rw [(runShadow_slots ⟨none, none⟩ ps).2]
    have h2 := hout (ps.map (fun pr => detach pr.2))
    rw [h2]
    cases ps <;> rfl

/-- C8: `OutputLogger.forward` returns exactly the value it was given, for
every input and every prior logger state, so splicing it into a forward
path never alters downstream values. -/
theorem claim_c8 {α : Type} (st : Option (List α)) (x : List α) :
    (outForward st x).2 = x := by
  cases st <;> rfl

/-! ## Claim C1: Shadow transparency -/

/-- C1: every operator variant of a `Shadow` wrapper returns exactly the
value the wrapped quantized module produces for the same operands: the
dequantized shadow computation and the logging only update the logger
state, never the returned value. -/
theorem claim_c1 {τ φ ς σ : Type} (dq : τ → φ) (sh : ShadowMod τ φ ς σ)
    (st : σ) (x y : τ) (s : ς) (l : List τ) (dim : Nat) :
    (sForward dq sh st x).2 = sh.orig_module.forward x ∧
      (sAdd dq sh st x y).2 = sh.orig_module.add x y ∧
      (sAddScalar dq sh st x s).2 = sh.orig_module.add_scalar x s ∧
      (sMul dq sh st x y).2 = sh.orig_module.mul x y ∧
      (sMulScalar dq sh st x s).2 = sh.orig_module.mul_scalar x s ∧
      (sCat dq sh st l dim).2 = sh.orig_module.cat l dim ∧
      (sAddRelu dq sh st x y).2 = sh.orig_module.add_relu x y :=
  ⟨rfl, rfl, rfl, rfl, rfl, rfl, rfl⟩

/-! ## Claim C3: stub substitution -/

/-- What the child loop makes of a quantized child named `n` with current
value `c`. -/
def stubImage (swap : List Tag) (L : Tag)
    (recur : PyModule → PyModule → Option PyModule) (fm : PyModule)
    (n : String) (c : PyModule) : Option PyModule :=
  match pyGet fm.children n with
  | none => some c
  | some fc =>
    if fc.ty ∈ swap then some (mkShadowTree L c fc)
    else recur fc c

theorem stubChildren_forall2 (swap : List Tag) (L : Tag)
    (recur : PyModule → PyModule → Option PyModule) (fm : PyModule)
    (ql cs : List (String × PyModule))
    (h : stubChildren swap L recur fm ql = some cs) :
    List.Forall₂
      (fun p q => p.1 = q.1 ∧ stubImage swap L recur fm p.1 p.2 = some q.2)
      ql cs := by
  induction ql generalizing cs with
  | nil =>
    injection h with h
    subst h
    exact List.Forall₂.nil
  | cons x rest ih =>
    obtain ⟨n0, c0⟩ := x
    cases hfm : pyGet fm.children n0 with
    | none =>
      simp only [stubChildren, hfm] at h
      cases hs : stubChildren swap L recur fm rest with
      | none => rw [hs] at h; cases h
      | some cs2 =>
        rw [hs] at h
        injection h with h
        subst h
        exact List.Forall₂.cons ⟨rfl, by simp [stubImage, hfm]⟩ (ih cs2 hs)
    | some fc0 =>
      by_cases hsw : fc0.ty ∈ swap
      · simp only [stubChildren, hfm, if_pos hsw] at h
        cases hs : stubChildren swap L recur fm rest with
        | none => rw [hs] at h; cases h
        | some cs2 =>
          rw [hs] at h
          injection h with h
          subst h
          exact List.Forall₂.cons ⟨rfl, by simp [stubImage, hfm, hsw]⟩
            (ih cs2 hs)
      · simp only [stubChildren, hfm, if_neg hsw] at h
        cases hr : recur fc0 c0 with
        | none => rw [hr] at h; cases h
        | some c2 =>
          rw [hr] at h
          cases hs : stubChildren swap L recur fm rest with
          | none => rw [hs] at h; cases h
          | some cs2 =>
            rw [hs] at h
            injection h with h
            subst h
            exact List.Forall₂.cons ⟨rfl, by simp [stubImage, hfm, hsw, hr]⟩
              (ih cs2 hs)

theorem pyGet_forall2 {α β : Type} (F : String → α → Option β)
    (l1 : List (String × α)) (l2 : List (String × β))
    (h : List.Forall₂ (fun p q => p.1 = q.1 ∧ F p.1 p.2 = some q.2) l1 l2)
    (n : String) :
    (pyGet l1 n = none → pyGet l2 n = none) ∧
    (∀ c, pyGet l1 n = some c →
      ∃ d, F n c = some d ∧ pyGet l2 n = some d) := by
  induction h with
  | nil => exact ⟨fun _ => rfl, fun c hc => Option.noConfusion hc⟩
  | @cons p q l1t l2t hpq hrest ih =>
    obtain ⟨hname, hF⟩ := hpq
    constructor
    · intro hn
      rw [pyGet_cons] at hn
      rw [pyGet_cons]
      cases hp : pyGet l1t n with
      | some v => rw [hp] at hn; cases hn
      | none =>
        rw [hp] at hn
        rw [ih.1 hp]
        by_cases he : p.1 = n
        · rw [if_pos he] at hn; cases hn
        · have he2 : ¬ q.1 = n := by rw [← hname]; exact he
          simp [he2]
    · intro c hc
      rw [pyGet_cons] at hc
      cases hp : pyGet l1t n with
      | some v =>
        rw [hp] at hc
        injection hc with hc
        subst hc
        obtain ⟨d, hFd, hl2⟩ := ih.2 v hp
        refine ⟨d, hFd, ?_⟩
        rw [pyGet_cons, hl2]
      | none =>
        rw [hp] at hc
        by_cases he : p.1 = n
        · rw [if_pos he] at hc
          injection hc with hc
          refine ⟨q.2, ?_, ?_⟩
          · rw [he, hc] at hF
            exact hF
          · have he2 : q.1 = n := by rw [← hname]; exact he
            rw [pyGet_cons, ih.1 hp, if_pos he2]
        · rw [if_neg he] at hc
          cases hc

/-- C3: after `prepare_model_with_stubs`, a quantized child matched by
name to a float child of swap-listed type is replaced by a `Shadow`
whose two inner components are exactly the original quantized child and
the original float child (equality of the whole subtrees: nothing inside
them was further substituted); a matched pair of non-swap-listed float
type is recursed into; a quantized child with no same-named float sibling
is left untouched (and absent names raise nothing: the walker is total up
to its fuel, as the witness evaluates). -/
theorem claim_c3 (swap : List Tag) (L : Tag) (fuel : Nat)
    (fm qm res : PyModule)
    (hs : prepareStubsF swap L (fuel + 1) fm qm = some res) :
    res.ty = qm.ty ∧
    (∀ n c, pyGet qm.children n = some c → pyGet fm.children n = none →
        pyGet res.children n = some c) ∧
    (∀ n c fc, pyGet qm.children n = some c →
        pyGet fm.children n = some fc → fc.ty ∈ swap →
        pyGet res.children n = some (mkShadowTree L c fc)) ∧
    (∀ n c fc, pyGet qm.children n = some c →
        pyGet fm.children n = some fc → fc.ty ∉ swap →
        pyGet res.children n = prepareStubsF swap L fuel fc c) ∧
    (∀ n, pyGet qm.children n = none → pyGet res.children n = none) := by
  unfold prepareStubsF at hs
  cases hcs : stubChildren swap L (prepareStubsF swap L fuel) fm
      qm.children with
  | none => rw [hcs] at hs; cases hs
  | some cs =>
    rw [hcs] at hs
    injection hs with hs
    subst hs
    have hf2 := stubChildren_forall2 swap L (prepareStubsF swap L fuel)
      fm qm.children cs hcs
    have hpg := pyGet_forall2
      (stubImage swap L (prepareStubsF swap L fuel) fm) qm.children cs hf2
    refine ⟨rfl, ?_, ?_, ?_, ?_⟩
    · intro n c hq hfm
      obtain ⟨d, hFd, hl⟩ := (hpg n).2 c hq
      rw [stubImage, hfm] at hFd
      injection hFd with hFd
      subst hFd
      exact hl
    · intro n c fc hq hfm hsw
      obtain ⟨d, hFd, hl⟩ := (hpg n).2 c hq
      simp only [stubImage, hfm] at hFd
      rw [if_pos hsw] at hFd
      injection hFd with hFd
      subst hFd
      exact hl
    · intro n c fc hq hfm hsw
      obtain ⟨d, hFd, hl⟩ := (hpg n).2 c hq
      simp only [stubImage, hfm] at hFd
      rw [if_neg hsw] at hFd
      show pyGet cs n = prepareStubsF swap L fuel fc c
      rw [hl, hFd]
    · intro n hq
      exact (hpg n).1 hq

/-- C3 (witness): a float tree with child `"a"` of a swap-listed type and
a quantized tree with child `"a"`; after the walker runs, the child is the
Shadow of exactly the two original children. -/
theorem claim_c3_witness :
    pyGet
        (PyModule.mk (.c 1)
          [(("a"),
            mkShadowTree (Tag.c 99) (.mk (.c 7) []) (.mk (.c 5) []))]).children
        ("a") =
      some (mkShadowTree (Tag.c 99) (.mk (.c 7) []) (.mk (.c 5) [])) :=
  (claim_c3 [Tag.c 5] (Tag.c 99) 2
      (.mk (.c 0) [(("a"), .mk (.c 5) [])])
      (.mk (.c 1) [(("a"), .mk (.c 7) [])])
      (.mk (.c 1)
        [(("a"), mkShadowTree (Tag.c 99) (.mk (.c 7) []) (.mk (.c 5) []))])
      rfl).2.2.1
    ("a") (.mk (.c 7) []) (.mk (.c 5) []) rfl rfl (by decide)

/-! ## Claim C7: the logger-collection walker -/

/-- Predicate `Descends m path n`: following the child names of `path` from `m`
(through any child, logger or not) reaches the node `n`. -/
inductive Descends {σ : Type} : MTree σ → List String → MTree σ → Prop where
  | refl (m : MTree σ) : Descends m [] m
  | step {m c d : MTree σ} {n : String} {path : List String} :
      (n, c) ∈ m.children → Descends c path d → Descends m (n :: path) d

theorem hereEntry_mem {σ : Type} (m : MTree σ) (p : String) (k : String)
    (s : σ) :
    (k, s) ∈ hereEntry m p ↔
      (firstLogger m.children).map MTree.stats = some s ∧
        k = withDot p ++ "stats" := by
  unfold hereEntry
  cases hfl : firstLogger m.children with
  | none => simp
  | some lg =>
    simp only [List.mem_singleton, Prod.mk.injEq, Option.map_some',
      Option.some.injEq]
    constructor
    · rintro ⟨h1, h2⟩
      exact ⟨h2.symm, h1⟩
    · rintro ⟨h1, h2⟩
      exact ⟨h2, h1.symm⟩

theorem loggerScan_success {σ : Type}
    (recur : MTree σ → String → Option (List (String × σ))) (p : String)
    (cl : List (String × MTree σ)) (t : List (String × σ))
    (h : loggerScan recur p cl = some t) :
    ∀ name c, (name, c) ∈ cl →
      ∃ lc, recur c (childPath p name) = some lc := by
  induction cl generalizing t with
  | nil => intro name c hc; cases hc
  | cons x rest ih =>
    obtain ⟨n0, c0⟩ := x
    intro name c hc
    simp only [loggerScan] at h
    cases hr : recur c0 (childPath p n0) with
    | none => rw [hr] at h; cases h
    | some l0 =>
      rw [hr] at h
      cases hs : loggerScan recur p rest with
      | none => rw [hs] at h; cases h
      | some t0 =>
        rcases List.mem_cons.mp hc with he | hmem
        · have h1 : n0 = name := congrArg Prod.fst he.symm
          have h2 : c0 = c := congrArg Prod.snd he.symm
          exact ⟨l0, by rw [← h1, ← h2]; exact hr⟩
        · exact ih t0 hs name c hmem

theorem loggerScan_mem {σ : Type}
    (recur : MTree σ → String → Option (List (String × σ))) (p : String)
    (cl : List (String × MTree σ)) (t : List (String × σ))
    (h : loggerScan recur p cl = some t) (k : String) (s : σ) :
    (k, s) ∈ t ↔
      ∃ name c lc, (name, c) ∈ cl ∧
        recur c (childPath p name) = some lc ∧ (k, s) ∈ lc := by
  induction cl generalizing t with
  | nil =>
    injection h with h
    subst h
    simp
  | cons x rest ih =>
    obtain ⟨n0, c0⟩ := x
    simp only [loggerScan] at h
    cases hr : recur c0 (childPath p n0) with
    | none => rw [hr] at h; cases h
    | some l0 =>
      rw [hr] at h
      cases hs : loggerScan recur p rest with
      | none => rw [hs] at h; cases h
      | some t0 =>
        rw [hs] at h
        injection h with h
        subst h
        rw [List.mem_append]
        constructor
        · rintro (hin | hin)
          · exact ⟨n0, c0, l0, List.mem_cons_self _ _, hr, hin⟩
          · obtain ⟨name, c, lc, hmem, hrec, hlc⟩ := (ih t0 hs).mp hin
            exact ⟨name, c, lc, List.mem_cons_of_mem _ hmem, hrec, hlc⟩
        · rintro ⟨name, c, lc, hmem, hrec, hlc⟩
          rcases List.mem_cons.mp hmem with he | hmem2
          · left
            have h1 : n0 = name := congrArg Prod.fst he.symm
            have h2 : c0 = c := congrArg Prod.snd he.symm
            rw [← h1, ← h2] at hrec
            rw [hr] at hrec
            injection hrec with hrec
            rw [hrec]
            exact hlc
          · right
            exact (ih t0 hs).mpr ⟨name, c, lc, hmem2, hrec, hlc⟩

/-- C7 (counterexample): the walker keys a record by the node's dotted
path EXTENDED WITH the fixed final segment `"stats"`, not by the node's
path, and it DOES descend into logger children (the second loop of
`_get_logger_dict_helper` has no `isinstance` guard).  Here the root has a
logger child with stats `7` (recorded under `"stats"`, not under the
root's path `""`), and that logger itself holds a logger child whose
stats `9` are also collected, under `"lgA.stats"`, which the claimed
no-descent traversal would never visit. -/
theorem claim_c7_counterexample :
    loggerHelperF 3
        (MTree.mk false (0 : Nat)
          [(("lgA"), .mk true 7 [(("inner"), .mk true 9 [])])]) ("") =
      some [(("stats"), 7), (("lgA.stats"), 9)] ∧
    pyGet [(("stats"), (7 : Nat)), (("lgA.stats"), 9)] ("") = none :=
  ⟨by decide, by decide⟩

/-- C7 (amended): an entry `(k, s)` is collected exactly for the nodes
(reached by descending through EVERY child, logger children included)
having at least one logger child, `s` being the FIRST logger child's
stat record — at most one per node — and `k` the node's dotted path
extended with the final segment `"stats"`. -/
theorem claim_c7 {σ : Type} (fuel : Nat) (m : MTree σ) (p : String)
    (l : List (String × σ)) (h : loggerHelperF fuel m p = some l)
    (k : String) (s : σ) :
    (k, s) ∈ l ↔
      ∃ path n2, Descends m path n2 ∧
        (firstLogger n2.children).map MTree.stats = some s ∧
        k = withDot (path.foldl childPath p) ++ "stats" := by
  induction fuel generalizing m p l with
  | zero => cases h
  | succ fuel ih =>
    simp only [loggerHelperF] at h
    cases hscan : loggerScan (loggerHelperF fuel) p m.children with
    | none => rw [hscan] at h; cases h
    | some t =>
      rw [hscan] at h
      injection h with h
      subst h
      rw [List.mem_append]
      constructor
      · rintro (hin | hin)
        · obtain ⟨h1, h2⟩ := (hereEntry_mem m p k s).mp hin
          exact ⟨[], m, Descends.refl m, h1, h2⟩
        · obtain ⟨name, c, lc, hmem, hrec, hlc⟩ :=
            (loggerScan_mem (loggerHelperF fuel) p m.children t hscan
              k s).mp hin
          obtain ⟨path2, n2, hD, hfl, hk⟩ := (ih c (childPath p name) lc
            hrec).mp hlc
          exact ⟨name :: path2, n2, Descends.step hmem hD, hfl, hk⟩
      · rintro ⟨path, n2, hD, hfl, hk⟩
        cases hD with
        | refl =>
          left
          exact (hereEntry_mem m p k s).mpr ⟨hfl, hk⟩
        | @step _ c _ name path2 hmem hD2 =>
          right
          obtain ⟨lc, hrec⟩ := loggerScan_success (loggerHelperF fuel) p
            m.children t hscan name c hmem
          refine (loggerScan_mem (loggerHelperF fuel) p m.children t hscan
            k s).mpr ⟨name, c, lc, hmem, hrec, ?_⟩
          exact (ih c (childPath p name) lc hrec).mpr ⟨path2, n2, hD2, hfl, hk⟩

/-- C7 (witness): in a tree whose child `"a"` holds a logger with stats
`7`, the collected entry at key `"a.stats"` corresponds to a descent path
reaching that node. -/
theorem claim_c7_witness :
    ∃ path n2,
      Descends
        (MTree.mk false (0 : Nat)
          [(("a"), .mk false 1 [(("lgr"), .mk true 7 [])])]) path n2 ∧
      (firstLogger n2.children).map MTree.stats = some 7 ∧
      ("a.stats") = withDot (path.foldl childPath ("")) ++ "stats" :=
  (claim_c7 3
      (MTree.mk false (0 : Nat)
        [(("a"), .mk false 1 [(("lgr"), .mk true 7 [])])]) ("")
      [(("a.stats"), 7)] (by decide) ("a.stats") 7).mp (by decide)

/-! ## Claim C10: the frame property of `prepare_model_with_stubs` -/

theorem pyGet_singleton {κ α : Type} [DecidableEq κ] (a : κ) (n : α)
    (b : κ) : pyGet [(a, n)] b = if a = b then some n else none := rfl

theorem Heap.get_set (h : Heap) (a : Addr) (n : HNode) (b : Addr) :
    (h.set a n).get b = if a = b then some n else h.get b := by
  show pyGet (h.mem ++ [(a, n)]) b = _
  rw [pyGet_append, pyGet_singleton]
  by_cases hab : a = b
  · simp [hab]
  · simp only [if_neg hab]
    rfl

theorem Heap.get_alloc (h : Heap) (n : HNode) (b : Addr) :
    ((h.alloc n).2).get b = if h.next = b then some n else h.get b := by
  show pyGet (h.mem ++ [(h.next, n)]) b = _
  rw [pyGet_append, pyGet_singleton]
  by_cases hab : h.next = b
  · simp [hab]
  · simp only [if_neg hab]
    rfl

theorem Heap.get_alloc_lt (h : Heap) (n : HNode) (b : Addr)
    (hb : b < h.next) : ((h.alloc n).2).get b = h.get b := by
  rw [Heap.get_alloc, if_neg (Nat.ne_of_gt hb)]

theorem setChildAddr_get_ne (h : Heap) (a : Addr) (k : String) (v : Addr)
    (b : Addr) (hne : b ≠ a) : (setChildAddr h a k v).get b = h.get b := by
  unfold setChildAddr
  cases hg : h.get a with
  | none => rfl
  | some nd =>
    rw [Heap.get_set, if_neg (fun he => hne he.symm)]

theorem setChildAddr_next (h : Heap) (a : Addr) (k : String) (v : Addr) :
    (setChildAddr h a k v).next = h.next := by
  unfold setChildAddr
  cases hg : h.get a with
  | none => rfl
  | some nd => rfl

theorem foldSet_get (qa : Addr) (racc : List (String × Addr)) :
    ∀ (hh : Heap) (x : Addr), x ≠ qa →
      (racc.foldl (fun hh kv => setChildAddr hh qa kv.1 kv.2) hh).get x =
        hh.get x := by
  induction racc with
  | nil => intro hh x _; rfl
  | cons kv racc ih =>
    intro hh x hx
    have h1 : ((kv :: racc).foldl
        (fun hh kv => setChildAddr hh qa kv.1 kv.2) hh) =
        (racc.foldl (fun hh kv => setChildAddr hh qa kv.1 kv.2)
          (setChildAddr hh qa kv.1 kv.2)) := rfl
    rw [h1, ih (setChildAddr hh qa kv.1 kv.2) x hx,
      setChildAddr_get_ne hh qa kv.1 kv.2 x hx]

theorem foldSet_next (qa : Addr) (racc : List (String × Addr)) :
    ∀ hh : Heap,
      (racc.foldl (fun hh kv => setChildAddr hh qa kv.1 kv.2) hh).next =
        hh.next := by
  induction racc with
  | nil => intro hh; rfl
  | cons kv racc ih =>
    intro hh
    have h1 : ((kv :: racc).foldl
        (fun hh kv => setChildAddr hh qa kv.1 kv.2) hh) =
        (racc.foldl (fun hh kv => setChildAddr hh qa kv.1 kv.2)
          (setChildAddr hh qa kv.1 kv.2)) := rfl
    rw [h1, ih (setChildAddr hh qa kv.1 kv.2), setChildAddr_next]

theorem SpansMany_mono {h h2 : Heap} {roots : List Addr}
    {As : List (List Addr)} (hs : SpansMany h roots As) :
    (∀ x ∈ As.flatten, h2.get x = h.get x) → SpansMany h2 roots As := by
  induction hs with
  | nil => intro _; exact SpansMany.nil
  | @cons a nd rest Bs As hget hch hrest ihch ihrest =>
    intro hag
    refine SpansMany.cons ?_ (ihch ?_) (ihrest ?_)
    · rw [hag a (by simp)]
      exact hget
    · intro x hx
      refine hag x ?_
      simp only [List.flatten_cons, List.mem_append, List.mem_cons]
      exact Or.inl (Or.inr hx)
    · intro x hx
      refine hag x ?_
      simp only [List.flatten_cons, List.mem_append]
      exact Or.inr hx

/-- The frame contract the recursive call satisfies: runs on a
tree-shaped quantized side `A` leave every other pre-existing address
untouched, and the allocation counter never decreases. -/
def FrameSpec (recur : Heap → Addr → Addr → Option Heap) : Prop :=
  ∀ (h : Heap) (fc qc : Addr) (A : List Addr) (h2 : Heap),
    Spans h qc A → A.Nodup → (∀ x ∈ A, x < h.next) →
    recur h fc qc = some h2 →
    (∀ x, x < h.next → x ∉ A → h2.get x = h.get x) ∧ h.next ≤ h2.next

theorem prepLoop_frame (swap : List Tag) (L : Tag)
    (recur : Heap → Addr → Addr → Option Heap) (hrec : FrameSpec recur)
    (fcs : List (String × Addr)) :
    ∀ (cl : List (String × Addr)) (Bs : List (List Addr)) (h : Heap)
      (racc : List (String × Addr)) (out : Heap × List (String × Addr)),
      SpansMany h (cl.map Prod.snd) Bs →
      Bs.flatten.Nodup →
      (∀ x ∈ Bs.flatten, x < h.next) →
      prepLoop swap L recur fcs cl h racc = some out →
      (∀ x, x < h.next → x ∉ Bs.flatten → out.1.get x = h.get x) ∧
        h.next ≤ out.1.next := by
  intro cl
  induction cl with
  | nil =>
    intro Bs h racc out _ _ _ hp
    injection hp with hp
    subst hp
    exact ⟨fun x _ _ => rfl, Nat.le_refl _⟩
  | cons hd rest ih =>
    intro Bs h racc out hsp hnd hbd hp
    obtain ⟨name, qc⟩ := hd
    cases hsp with
    | @cons _ nd _ B0 Bs2 hget hch hrest =>
      have hndA : (qc :: B0.flatten).Nodup ∧ Bs2.flatten.Nodup ∧
          (qc :: B0.flatten).Disjoint Bs2.flatten := by
        rw [List.flatten_cons] at hnd
        exact List.nodup_append.mp hnd
      have hbdA : ∀ x ∈ (qc :: B0.flatten), x < h.next := by
        intro x hx
        exact hbd x (by rw [List.flatten_cons]; exact List.mem_append_left _ hx)
      have hbdB : ∀ x ∈ Bs2.flatten, x < h.next := by
        intro x hx
        exact hbd x (by rw [List.flatten_cons]; exact List.mem_append_right _ hx)
      simp only [prepLoop] at hp
      cases hfn : pyGet fcs name with
      | none =>
        simp only [hfn] at hp
        have hres := ih Bs2 h racc out hrest hndA.2.1 hbdB hp
        refine ⟨?_, hres.2⟩
        intro x hx hxn
        refine hres.1 x hx ?_
        intro hmem
        exact hxn (by rw [List.flatten_cons]; exact List.mem_append_right _ hmem)
      | some fc =>
        simp only [hfn] at hp
        cases hgf : h.get fc with
        | none =>
          simp only [hgf] at hp
          have hres := ih Bs2 h racc out hrest hndA.2.1 hbdB hp
          refine ⟨?_, hres.2⟩
          intro x hx hxn
          refine hres.1 x hx ?_
          intro hmem
          exact hxn (by rw [List.flatten_cons]; exact List.mem_append_right _ hmem)
        | some fnd =>
          simp only [hgf] at hp
          by_cases hsw : fnd.ty ∈ swap
          · rw [if_pos hsw] at hp
            -- three allocations, then continue on the rest
            set h3 : Heap :=
              ⟨h.mem ++ [(h.next, ⟨Tag.dequantCls, []⟩)] ++
                  [(h.next + 1, ⟨L, []⟩)] ++
                  [(h.next + 1 + 1, ⟨Tag.shadowCls,
                    [("orig_module", qc), ("shadow_module", fc),
                     ("dequant", h.next), ("logger", h.next + 1)]⟩)],
                h.next + 1 + 1 + 1⟩ with h3def
            have hp3 : prepLoop swap L recur fcs rest h3
                (racc ++ [(name, h.next + 1 + 1)]) = some out := hp
            have hpres : ∀ x, x < h.next → h3.get x = h.get x := by
              intro x hx
              have hne3 : ¬ (h.next + 1 + 1 = x) :=
                Nat.ne_of_gt (Nat.lt_of_lt_of_le hx (Nat.le_add_right _ 2))
              have hne2 : ¬ (h.next + 1 = x) :=
                Nat.ne_of_gt (Nat.lt_of_lt_of_le hx (Nat.le_add_right _ 1))
              have hne1 : ¬ (h.next = x) := Nat.ne_of_gt hx
              show pyGet _ x = _
              rw [pyGet_append, pyGet_singleton, if_neg hne3,
                pyGet_append, pyGet_singleton, if_neg hne2,
                pyGet_append, pyGet_singleton, if_neg hne1]
              rfl
            have hsp3 : SpansMany h3 (rest.map Prod.snd) Bs2 :=
              SpansMany_mono hrest (fun x hx => hpres x (hbdB x hx))
            have hbd3 : ∀ x ∈ Bs2.flatten, x < h3.next := by
              intro x hx
              show x < h.next + 1 + 1 + 1
              exact Nat.lt_of_lt_of_le (hbdB x hx) (Nat.le_add_right _ 3)
            have hres := ih Bs2 h3 (racc ++ [(name, h.next + 1 + 1)]) out
              hsp3 hndA.2.1 hbd3 hp3
            constructor
            · intro x hx hxn
              have hx3 : x < h3.next := by
                show x < h.next + 1 + 1 + 1
                exact Nat.lt_of_lt_of_le hx (Nat.le_add_right _ 3)
              have hxB : x ∉ Bs2.flatten := fun hmem =>
                hxn (by rw [List.flatten_cons]; exact List.mem_append_right _ hmem)
              rw [hres.1 x hx3 hxB, hpres x hx]
            · have hle : h.next ≤ h3.next := by
                show h.next ≤ h.next + 1 + 1 + 1
                exact Nat.le_add_right _ 3
              exact Nat.le_trans hle hres.2
          · rw [if_neg hsw] at hp
            cases hr : recur h fc qc with
            | none => rw [hr] at hp; cases hp
            | some h2b =>
              simp only [hr] at hp
              have hqcspan : Spans h qc (qc :: B0.flatten) :=
                SpansMany.cons hget hch SpansMany.nil
              have hrec2 := hrec h fc qc (qc :: B0.flatten) h2b hqcspan
                hndA.1 hbdA hr
              have hsp2 : SpansMany h2b (rest.map Prod.snd) Bs2 := by
                refine SpansMany_mono hrest ?_
                intro x hx
                exact hrec2.1 x (hbdB x hx)
                  (fun hmem => hndA.2.2 hmem hx)
              have hbd2 : ∀ x ∈ Bs2.flatten, x < h2b.next := by
                intro x hx
                exact Nat.lt_of_lt_of_le (hbdB x hx) hrec2.2
              have hres := ih Bs2 h2b racc out hsp2 hndA.2.1 hbd2 hp
              constructor
              · intro x hx hxn
                have hx2 : x < h2b.next := Nat.lt_of_lt_of_le hx hrec2.2
                have hxB : x ∉ Bs2.flatten := fun hmem =>
                  hxn (by rw [List.flatten_cons]; exact List.mem_append_right _ hmem)
                have hxA : x ∉ (qc :: B0.flatten) := fun hmem =>
                  hxn (by rw [List.flatten_cons]; exact List.mem_append_left _ hmem)
                rw [hres.1 x hx2 hxB, hrec2.1 x hx hxA]
              · exact Nat.le_trans hrec2.2 hres.2

theorem prepareHeap_frame (swap : List Tag) (L : Tag) (fuel : Nat) :
    FrameSpec (prepareHeap swap L fuel) := by
  induction fuel with
  | zero =>
    intro h fc qc A h2 _ _ _ hrun
    cases hrun
  | succ fuel ih =>
    intro h fc qc A h2 hsp hnd hbd hrun
    cases hsp with
    | @cons _ nd _ Bs As2 hget hch hrest =>
      cases hrest
      have hhc : heapChildren h qc = nd.children := by
        unfold heapChildren
        rw [hget]
      simp only [prepareHeap] at hrun
      rw [hhc] at hrun
      cases hloop : prepLoop swap L (prepareHeap swap L fuel)
          (heapChildren h fc) nd.children h [] with
      | none => rw [hloop] at hrun; cases hrun
      | some out =>
        rw [hloop] at hrun
        obtain ⟨oh, oracc⟩ := out
        injection hrun with hrun
        subst hrun
        have hnd1 := List.nodup_cons.mp hnd
        have hbd1 : ∀ x ∈ Bs.flatten, x < h.next := fun x hx =>
          hbd x (List.mem_cons_of_mem _ hx)
        have hloopres := prepLoop_frame swap L (prepareHeap swap L fuel) ih
          (heapChildren h fc) nd.children Bs h [] (oh, oracc) hch hnd1.2
          hbd1 hloop
        constructor
        · intro x hx hxn
          have hxq : x ≠ qc := fun he => hxn
            (by rw [he]; exact List.mem_cons_self _ _)
          have hxB : x ∉ Bs.flatten := fun hm =>
            hxn (List.mem_cons_of_mem _ hm)
          rw [foldSet_get qc oracc oh x hxq]
          exact hloopres.1 x hx hxB
        · rw [foldSet_next]
          exact hloopres.2

/-- C10 (counterexample): the claim quantifies over every input pair, but
Python lets the caller pass the SAME module object as the float and the
quantized argument.  Here address 0 is both roots: its child `"a"` (of
swap-listed type `c 5`) is reassigned to a fresh `Shadow`, so the float
module's children change from `[("a", 1)]` to `[("a", 4)]`. -/
theorem claim_c10_counterexample :
    (prepareHeap [Tag.c 5] (Tag.c 99) 3
        ⟨[(0, ⟨Tag.c 10, [(("a"), 1)]⟩), (1, ⟨Tag.c 5, []⟩)], 2⟩ 0 0).bind
        (fun hr => hr.get 0) = some ⟨Tag.c 10, [(("a"), 4)]⟩ ∧
    Heap.get ⟨[(0, ⟨Tag.c 10, [(("a"), 1)]⟩), (1, ⟨Tag.c 5, []⟩)], 2⟩ 0 =
      some ⟨Tag.c 10, [(("a"), 1)]⟩ :=
  ⟨by decide, by decide⟩

/-- C10 (amended): provided the float and quantized modules are object
TREES sharing no object with each other (disjoint, duplicate-free address
sets inside the live heap), `prepare_model_with_stubs` leaves every
pre-existing object outside the quantized tree untouched — its only
structural mutations are reassignments of quantized-side child tables and
fresh allocations — and in particular the float module and all of its
descendants have exactly the same contents before and after the call. -/
theorem claim_c10 (swap : List Tag) (L : Tag) (fuel : Nat) (h : Heap)
    (fa qa : Addr) (Af Aq : List Addr) (h2 : Heap)
    (hfs : Spans h fa Af) (hqs : Spans h qa Aq)
    (hnd : (Af ++ Aq).Nodup)
    (hbd : ∀ a ∈ Af ++ Aq, a < h.next)
    (hrun : prepareHeap swap L fuel h fa qa = some h2) :
    (∀ a, a < h.next → a ∉ Aq → h2.get a = h.get a) ∧
      ∀ a ∈ Af, h2.get a = h.get a := by
  have hsub := List.nodup_append.mp hnd
  have hbdq : ∀ x ∈ Aq, x < h.next := fun x hx =>
    hbd x (List.mem_append_right _ hx)
  have hfr := prepareHeap_frame swap L fuel h fa qa Aq h2 hqs hsub.2.1
    hbdq hrun
  refine ⟨hfr.1, ?_⟩
  intro a ha
  exact hfr.1 a (hbd a (List.mem_append_left _ ha))
    (fun hmem => hsub.2.2 ha hmem)

/-- The disjoint two-tree heap of the C10 witness: the float tree at
address 0 (with leaf 1 of swap-listed type), the quantized tree at
address 2 (with leaf 3). -/
def wHeap : Heap :=
  ⟨[(0, ⟨Tag.c 1, [(("a"), 1)]⟩), (1, ⟨Tag.c 5, []⟩),
    (2, ⟨Tag.c 2, [(("a"), 3)]⟩), (3, ⟨Tag.c 6, []⟩)], 4⟩

/-- The heap after `prepare_model_with_stubs(float=0, quant=2)` on
`wHeap`: a fresh `DeQuantize` (4), logger (5) and `Shadow` (6) are
allocated and the quantized root's child `"a"` is reassigned to 6. -/
def wHeapRes : Heap :=
  ⟨[(0, ⟨Tag.c 1, [(("a"), 1)]⟩), (1, ⟨Tag.c 5, []⟩),
    (2, ⟨Tag.c 2, [(("a"), 3)]⟩), (3, ⟨Tag.c 6, []⟩),
    (4, ⟨Tag.dequantCls, []⟩), (5, ⟨Tag.c 99, []⟩),
    (6, ⟨Tag.shadowCls,
      [(("orig_module"), 3), (("shadow_module"), 1),
       (("dequant"), 4), (("logger"), 5)]⟩),
    (2, ⟨Tag.c 2, [(("a"), 6)]⟩)], 7⟩

/-- C10 (witness): on the disjoint two-tree heap, the float root and its
descendant are untouched by the run. -/
theorem claim_c10_witness :
    wHeapRes.get 0 = wHeap.get 0 ∧ wHeapRes.get 1 = wHeap.get 1 := by
  have h1 : SpansMany wHeap [1] [[1]] :=
    @SpansMany.cons wHeap 1 ⟨Tag.c 5, []⟩ [] [] [] rfl SpansMany.nil
      SpansMany.nil
  have h0 : SpansMany wHeap [0] [[0, 1]] :=
    @SpansMany.cons wHeap 0 ⟨Tag.c 1, [(("a"), 1)]⟩ [] [[1]] [] rfl h1
      SpansMany.nil
  have h3 : SpansMany wHeap [3] [[3]] :=
    @SpansMany.cons wHeap 3 ⟨Tag.c 6, []⟩ [] [] [] rfl SpansMany.nil
      SpansMany.nil
  have h2 : SpansMany wHeap [2] [[2, 3]] :=
    @SpansMany.cons wHeap 2 ⟨Tag.c 2, [(("a"), 3)]⟩ [] [[3]] [] rfl h3
      SpansMany.nil
  have happ := claim_c10 [Tag.c 5] (Tag.c 99) 3 wHeap 0 2 [0, 1] [2, 3]
    wHeapRes h0 h2 (by decide) (by decide) (by decide)
  exact ⟨happ.2 0 (by decide), happ.2 1 (by decide)⟩

end NumericSuite
